import Mathlib

/-
Shallow embedding of the azx-service-solver core: the combination finder and
the greedy solver loop from src/lib/solver.ts (the same code is duplicated
inside the fallback web worker), together with the grid-validation check of
useSolver.importGrid and the countRemainingBlocks utility from src/lib/utils.ts.

Grids are lists of rows of integers (JS numbers restricted to the integral
values the data model admits).  The JS code never reads outside a row on the
rectangular grids of the data model; the embedding returns the default 0 for
such reads.
-/

/-- A cell as formed by the finder: 0-based coordinates plus the grid value
observed at the moment the cell was formed. -/
structure Cell where
  row : Nat
  col : Nat
  value : Int
deriving DecidableEq, Repr

/-- A grid: a list of rows of integer values. -/
abbrev Grid := List (List Int)

/-- A candidate combination (Move): the list of cells it clears. -/
abbrev Move := List Cell

/-- One applied move, the constant sum 10, and the resulting grid snapshot. -/
structure Step where
  cells : List Cell
  sum : Int
  gridAfter : Grid
deriving DecidableEq, Repr

/-- Read grid[r][c]; 0 for coordinates outside the grid (the program never
performs such a read on a rectangular grid). -/
def valueAt (g : Grid) (r c : Nat) : Int := (g.getD r []).getD c 0

/-- Write value v at coordinate (r, c); no-op outside the grid. -/
def setCell (g : Grid) (r c : Nat) (v : Int) : Grid :=
  g.set r ((g.getD r []).set c v)

/-- src/lib/utils.ts countRemainingBlocks: grid.flat().filter(v => v > 0).length. -/
def countRemainingBlocks (g : Grid) : Nat :=
  (g.flatten.filter fun v => decide (0 < v)).length

/-- getAllSubsets: starts from [[]] and, for each item, appends every already
known subset extended by that item. -/
def getAllSubsets {α : Type} (arr : List α) : List (List α) :=
  arr.foldl (fun subsets item => subsets ++ subsets.map fun s => s ++ [item]) [[]]

/-- Minimum of a list of indices; the source sorts ascending and takes the
first element, which is the minimum. -/
def natListMin : List Nat → Nat
  | [] => 0
  | c :: cs => cs.foldl Nat.min c

/-- Maximum of a list of indices; the source sorts ascending and takes the
last element, which is the maximum. -/
def natListMax : List Nat → Nat
  | [] => 0
  | c :: cs => cs.foldl Nat.max c

/-- isValidHorizontalSelection: empty is invalid, one cell is always valid,
otherwise every column in the span [minCol, maxCol] must be selected or hold 0. -/
def isValidHorizontalSelection (cells : List Cell) (row : List Int) : Bool :=
  match cells with
  | [] => false
  | [_] => true
  | _ =>
    let cols := cells.map fun c => c.col
    let minCol := natListMin cols
    let maxCol := natListMax cols
    (List.range' minCol (maxCol + 1 - minCol)).all fun col =>
      (cells.any fun c => c.col == col) || (row.getD col 0 == 0)

/-- isValidVerticalSelection: the symmetric check over the row span of a column. -/
def isValidVerticalSelection (cells : List Cell) (g : Grid) (col : Nat) : Bool :=
  match cells with
  | [] => false
  | [_] => true
  | _ =>
    let rws := cells.map fun c => c.row
    let minRow := natListMin rws
    let maxRow := natListMax rws
    (List.range' minRow (maxRow + 1 - minRow)).all fun r =>
      (cells.any fun c => c.row == r) || (valueAt g r col == 0)

/-- The nonzero cells of row r, in column order:
grid[row].map((value, col) => ({row, col, value})).filter(c => c.value > 0). -/
def rowCells (g : Grid) (r : Nat) : List Cell :=
  ((g.getD r []).enum.map fun p => Cell.mk r p.1 p.2).filter fun c =>
    decide (0 < c.value)

/-- The nonzero cells of column c, in row order. -/
def colCells (g : Grid) (c : Nat) : List Cell :=
  (List.range g.length).filterMap fun r =>
    if 0 < valueAt g r c then some (Cell.mk r c (valueAt g r c)) else none

/-- subset.reduce((acc, cell) => acc + cell.value, 0). -/
def sumVal (cells : List Cell) : Int := cells.foldl (fun acc c => acc + c.value) 0

/-- Number of rows: grid.length. -/
def rowsOf (g : Grid) : Nat := g.length

/-- Number of columns: grid[0]?.length or 0. -/
def colsOf (g : Grid) : Nat := (g.headD []).length

/-- The horizontal pass for one row: every subset of the row's nonzero cells
that is non-empty, sums to 10 and passes the span check. -/
def hRowCands (g : Grid) (r : Nat) : List Move :=
  (getAllSubsets (rowCells g r)).filter fun s =>
    !s.isEmpty && (sumVal s == 10) && isValidHorizontalSelection s (g.getD r [])

/-- All horizontal candidates, rows in ascending order. -/
def hCands (g : Grid) : List Move :=
  (List.range (rowsOf g)).flatMap fun r => hRowCands g r

/-- The vertical pass for one column. -/
def vColCands (g : Grid) (c : Nat) : List Move :=
  (getAllSubsets (colCells g c)).filter fun s =>
    !s.isEmpty && (sumVal s == 10) && isValidVerticalSelection s g c

/-- All vertical candidates, columns in ascending order. -/
def vCands (g : Grid) : List Move :=
  (List.range (colsOf g)).flatMap fun c => vColCands g c

/-- The nonzero cells inside the rectangle [minRow, maxRow] x [minCol, maxCol],
in row-major order. -/
def rectCells (g : Grid) (minRow minCol maxRow maxCol : Nat) : List Cell :=
  (List.range' minRow (maxRow + 1 - minRow)).flatMap fun r =>
    (List.range' minCol (maxCol + 1 - minCol)).filterMap fun c =>
      if 0 < valueAt g r c then some (Cell.mk r c (valueAt g r c)) else none

/-- The candidate contributed by one rectangle: skipped when degenerate
(single row or column), empty, or when the nonzero content does not sum to 10;
otherwise the whole nonzero-cell set. -/
def rectCand (g : Grid) (minRow minCol maxRow maxCol : Nat) : List Move :=
  if minRow = maxRow ∨ minCol = maxCol then []
  else if (rectCells g minRow minCol maxRow maxCol).isEmpty then []
  else if sumVal (rectCells g minRow minCol maxRow maxCol) == 10 then
    [rectCells g minRow minCol maxRow maxCol]
  else []

/-- All rectangular candidates, enumerated exactly in the source's loop order. -/
def rCands (g : Grid) : List Move :=
  (List.range (rowsOf g)).flatMap fun minRow =>
    (List.range (colsOf g)).flatMap fun minCol =>
      (List.range' minRow (rowsOf g - minRow)).flatMap fun maxRow =>
        (List.range' minCol (colsOf g - minCol)).flatMap fun maxCol =>
          rectCand g minRow minCol maxRow maxCol

/-- The dedup key of addCombination: the source joins the sorted list of the
"row-col" strings of the cells, and two such keys coincide exactly when the
multisets of coordinates coincide, which is what this key records. -/
def moveKey (m : Move) : Multiset (Nat × Nat) :=
  (m.map fun c => (c.row, c.col) : List (Nat × Nat))

/-- addCombination applied along the candidate stream: keep a candidate only
when its key has not been seen before. -/
def dedupCombinations : List Move → List (Multiset (Nat × Nat)) → List Move
  | [], _ => []
  | m :: ms, seen =>
    if moveKey m ∈ seen then dedupCombinations ms seen
    else m :: dedupCombinations ms (moveKey m :: seen)

/-- findValidCombinations: the three passes in order, deduplicated. -/
def findValidCombinations (g : Grid) : List Move :=
  dedupCombinations (hCands g ++ vCands g ++ rCands g) []

/-- combination[0].col; candidates are never empty. -/
def headCol (m : Move) : Nat := (m.headD (Cell.mk 0 0 0)).col

/-- The sort comparator of the solver: a strictly precedes b when a clears
more cells, or clears equally many and its first cell has a smaller column. -/
def moveLt (a b : Move) : Bool :=
  if a.length ≠ b.length then decide (b.length < a.length)
  else decide (headCol a < headCol b)

/-- sortedCombinations[0] under the stable sort: the earliest candidate that
no other candidate strictly precedes. -/
def selectBest : List Move → Move
  | [] => []
  | c :: cs => cs.foldl (fun best m => if moveLt m best then m else best) c

/-- Zero every cell of the move in a fresh snapshot. -/
def applyMove (g : Grid) (m : Move) : Grid :=
  m.foldl (fun acc c => setCell acc c.row c.col 0) g

/-- The solver loop, fuelled; the loop body exactly mirrors the source. -/
def solveAux : Nat → Grid → List Step
  | 0, _ => []
  | fuel + 1, g =>
    match findValidCombinations g with
    | [] => []
    | c :: cs =>
      let best := selectBest (c :: cs)
      let g2 := applyMove g best
      Step.mk best 10 g2 :: solveAux fuel g2

/-- solvePuzzle: the while-true loop terminates because every iteration
clears at least one nonzero cell, so countRemainingBlocks is enough fuel
(solveAux_stable below shows the fuel never runs out early). -/
def solvePuzzle (g : Grid) : List Step := solveAux (countRemainingBlocks g) g

/-- The grid after one iteration of the loop (unchanged when no candidate exists). -/
def stepGrid (g : Grid) : Grid :=
  match findValidCombinations g with
  | [] => g
  | c :: cs => applyMove g (selectBest (c :: cs))

/-- The chain of grid snapshots the loop walks through. -/
def gridSeq (g : Grid) : Nat → Grid
  | 0 => g
  | i + 1 => stepGrid (gridSeq g i)

/-- The validation performed by useSolver.importGrid before a grid is accepted:
non-empty, rectangular, every value in [0, 9].  (The typeof and Number.isInteger
checks are vacuous in this integer embedding.) -/
def importGridAccepts (g : Grid) : Bool :=
  if g.isEmpty || (g.headD []).isEmpty then false
  else g.all fun row =>
    (row.length == (g.headD []).length) &&
    row.all fun v => decide (0 ≤ v) && decide (v ≤ 9)

/-- The two reply shapes of the fallback worker. -/
inductive WorkerResponse where
  | result (steps : List Step)
  | error (msg : String)
deriving DecidableEq

/-- The worker onmessage handler for a solve message: solvePuzzle is total in
the embedding (the JS solver never throws on a numeric grid), so the catch
branch is dead and the reply is always a result. -/
def workerSolveReply (g : Grid) : WorkerResponse :=
  WorkerResponse.result (solvePuzzle g)

/-- Spec-side wording of the gap rule of section 4.1: a single-cell subset is
always legal, and otherwise every non-selected column inside the span holds 0. -/
def specGapFree (m : Move) (row : List Int) : Prop :=
  m.length = 1 ∨
    ∀ col, natListMin (m.map fun c => c.col) ≤ col →
      col ≤ natListMax (m.map fun c => c.col) →
      (∀ c ∈ m, c.col ≠ col) → row.getD col 0 = 0

/-- Spec-side wording of a valid input grid (section 6): non-empty,
rectangular, every value an integer in [0, 9]. -/
def specValidGrid (g : Grid) : Prop :=
  g ≠ [] ∧ g.headD [] ≠ [] ∧
    ∀ row ∈ g, row.length = (g.headD []).length ∧ ∀ v ∈ row, 0 ≤ v ∧ v ≤ 9

/-- Strict row-major order on cells. -/
def rowMajorLt (a b : Cell) : Prop :=
  a.row < b.row ∨ (a.row = b.row ∧ a.col < b.col)

/-! ### Basic lemmas: subset enumeration, grid reads and writes, counting -/

theorem getAllSubsets_go_mem {α : Type} (l : List α) (acc : List (List α))
    (s : List α) :
    s ∈ l.foldl (fun subsets item => subsets ++ subsets.map fun t => t ++ [item]) acc ↔
      ∃ t ∈ acc, ∃ u, u.Sublist l ∧ s = t ++ u := by
  induction l generalizing acc with
  | nil =>
    simp only [List.foldl_nil, List.sublist_nil]
    constructor
    · intro hs
      exact ⟨s, hs, [], rfl, by simp⟩
    · rintro ⟨t, ht, u, rfl, rfl⟩
      simpa using ht
  | cons a l ih =>
    rw [List.foldl_cons, ih]
    constructor
    · rintro ⟨t, ht, u, hu, rfl⟩
      rcases List.mem_append.mp ht with ht | ht
      · exact ⟨t, ht, u, hu.cons a, rfl⟩
      · rcases List.mem_map.mp ht with ⟨t0, ht0, rfl⟩
        exact ⟨t0, ht0, a :: u, hu.cons₂ a, by simp⟩
    · rintro ⟨t, ht, u, hu, rfl⟩
      cases hu with
      | cons _ hu2 =>
        exact ⟨t, List.mem_append.mpr (Or.inl ht), _, hu2, rfl⟩
      | cons₂ _ hu2 =>
        refine ⟨t ++ [a], ?_, _, hu2, by simp⟩
        exact List.mem_append.mpr (Or.inr (List.mem_map.mpr ⟨t, ht, rfl⟩))

theorem mem_getAllSubsets {α : Type} (l : List α) (s : List α) :
    s ∈ getAllSubsets l ↔ s.Sublist l := by
  unfold getAllSubsets
  rw [getAllSubsets_go_mem]
  simp

theorem valueAt_nil (r c : Nat) : valueAt [] r c = 0 := by
  simp [valueAt]

theorem valueAt_cons_zero (row : List Int) (g : Grid) (c : Nat) :
    valueAt (row :: g) 0 c = row.getD c 0 := rfl

theorem valueAt_cons_succ (row : List Int) (g : Grid) (r c : Nat) :
    valueAt (row :: g) (r + 1) c = valueAt g r c := rfl

theorem setCell_nil (r c : Nat) (v : Int) : setCell [] r c v = [] := rfl

theorem setCell_cons_zero (row : List Int) (g : Grid) (c : Nat) (v : Int) :
    setCell (row :: g) 0 c v = row.set c v :: g := rfl

theorem setCell_cons_succ (row : List Int) (g : Grid) (r c : Nat) (v : Int) :
    setCell (row :: g) (r + 1) c v = row :: setCell g r c v := rfl

theorem getD_set_zero (row : List Int) (c c2 : Nat) :
    (row.set c 0).getD c2 0 = if c2 = c then 0 else row.getD c2 0 := by
  rw [List.getD_eq_getElem?_getD, List.getD_eq_getElem?_getD, List.getElem?_set]
  by_cases h : c = c2
  · subst h
    by_cases hlen : c < row.length <;> simp [hlen]
  · rw [if_neg h, if_neg (fun hh => h hh.symm)]

theorem valueAt_setCell_zero (g : Grid) (r c r2 c2 : Nat) :
    valueAt (setCell g r c 0) r2 c2 =
      if r2 = r ∧ c2 = c then 0 else valueAt g r2 c2 := by
  induction g generalizing r r2 with
  | nil =>
    rw [setCell_nil, valueAt_nil]
    split <;> rfl
  | cons row rest ih =>
    cases r with
    | zero =>
      cases r2 with
      | zero =>
        show (row.set c 0).getD c2 0 = _
        rw [getD_set_zero]
        simp [valueAt]
      | succ s =>
        show valueAt rest s c2 = _
        simp [valueAt]
    | succ t =>
      cases r2 with
      | zero =>
        show row.getD c2 0 = _
        simp [valueAt]
      | succ s =>
        show valueAt (setCell rest t c 0) s c2 = _
        rw [ih]
        have hiff : (s + 1 = t + 1 ∧ c2 = c) ↔ (s = t ∧ c2 = c) := by omega
        simp only [valueAt, List.getD_cons_succ]
        rw [if_congr hiff rfl rfl]

theorem applyMove_nil (g : Grid) : applyMove g [] = g := rfl

theorem applyMove_cons (g : Grid) (cl : Cell) (rest : List Cell) :
    applyMove g (cl :: rest) = applyMove (setCell g cl.row cl.col 0) rest := rfl

theorem valueAt_applyMove (m : Move) (g : Grid) (r c : Nat) :
    valueAt (applyMove g m) r c =
      if ∃ cl ∈ m, r = cl.row ∧ c = cl.col then 0 else valueAt g r c := by
  induction m generalizing g with
  | nil => simp [applyMove_nil]
  | cons cl rest ih =>
    rw [applyMove_cons, ih, valueAt_setCell_zero]
    by_cases h1 : ∃ cl2 ∈ rest, r = cl2.row ∧ c = cl2.col
    · simp [h1, List.mem_cons]
    · by_cases h2 : r = cl.row ∧ c = cl.col
      · simp [h1, h2, List.mem_cons]
      · simp [h1, h2, List.mem_cons]

theorem count_nil : countRemainingBlocks [] = 0 := rfl

theorem count_cons (row : List Int) (g : Grid) :
    countRemainingBlocks (row :: g) =
      (row.filter fun v => decide (0 < v)).length + countRemainingBlocks g := by
  simp [countRemainingBlocks, List.flatten_cons, List.filter_append]

theorem rowCount_set_le (row : List Int) (c : Nat) :
    ((row.set c 0).filter fun v => decide (0 < v)).length ≤
      (row.filter fun v => decide (0 < v)).length := by
  induction row generalizing c with
  | nil => simp
  | cons v vs ih =>
    cases c with
    | zero =>
      rw [List.set_cons_zero, ← List.countP_eq_length_filter,
        ← List.countP_eq_length_filter, List.countP_cons, List.countP_cons]
      have h0 : (decide ((0 : Int) < 0)) = false := rfl
      rw [h0]
      by_cases hv : (0 : Int) < v
      · simp [hv]
      · simp [hv]
    | succ c2 =>
      rw [List.set_cons_succ, ← List.countP_eq_length_filter,
        ← List.countP_eq_length_filter, List.countP_cons, List.countP_cons]
      have := ih c2
      rw [← List.countP_eq_length_filter, ← List.countP_eq_length_filter] at this
      omega

theorem rowCount_set_lt (row : List Int) (c : Nat) (h : 0 < row.getD c 0) :
    ((row.set c 0).filter fun v => decide (0 < v)).length <
      (row.filter fun v => decide (0 < v)).length := by
  induction row generalizing c with
  | nil => simp at h
  | cons v vs ih =>
    cases c with
    | zero =>
      have hv : 0 < v := by simpa using h
      rw [List.set_cons_zero, ← List.countP_eq_length_filter,
        ← List.countP_eq_length_filter, List.countP_cons, List.countP_cons]
      have h0 : (decide ((0 : Int) < 0)) = false := rfl
      rw [h0]
      simp [hv]
    | succ c2 =>
      have h2 : 0 < vs.getD c2 0 := by simpa using h
      rw [List.set_cons_succ, ← List.countP_eq_length_filter,
        ← List.countP_eq_length_filter, List.countP_cons, List.countP_cons]
      have := ih c2 h2
      rw [← List.countP_eq_length_filter, ← List.countP_eq_length_filter] at this
      omega

theorem count_setCell_le (g : Grid) (r c : Nat) :
    countRemainingBlocks (setCell g r c 0) ≤ countRemainingBlocks g := by
  induction g generalizing r with
  | nil => simp [setCell_nil]
  | cons row rest ih =>
    cases r with
    | zero =>
      rw [setCell_cons_zero, count_cons, count_cons]
      exact Nat.add_le_add_right (rowCount_set_le row c) _
    | succ t =>
      rw [setCell_cons_succ, count_cons, count_cons]
      exact Nat.add_le_add_left (ih t) _

theorem count_setCell_lt (g : Grid) (r c : Nat) (h : 0 < valueAt g r c) :
    countRemainingBlocks (setCell g r c 0) < countRemainingBlocks g := by
  induction g generalizing r with
  | nil => rw [valueAt_nil] at h; omega
  | cons row rest ih =>
    cases r with
    | zero =>
      rw [valueAt_cons_zero] at h
      rw [setCell_cons_zero, count_cons, count_cons]
      exact Nat.add_lt_add_right (rowCount_set_lt row c h) _
    | succ t =>
      rw [valueAt_cons_succ] at h
      rw [setCell_cons_succ, count_cons, count_cons]
      exact Nat.add_lt_add_left (ih t h) _

theorem count_applyMove_le (m : Move) (g : Grid) :
    countRemainingBlocks (applyMove g m) ≤ countRemainingBlocks g := by
  induction m generalizing g with
  | nil => rw [applyMove_nil]
  | cons cl rest ih =>
    rw [applyMove_cons]
    exact le_trans (ih _) (count_setCell_le g cl.row cl.col)

theorem count_applyMove_lt (g : Grid) (cl : Cell) (rest : List Cell)
    (h : 0 < valueAt g cl.row cl.col) :
    countRemainingBlocks (applyMove g (cl :: rest)) < countRemainingBlocks g := by
  rw [applyMove_cons]
  exact lt_of_le_of_lt (count_applyMove_le rest _) (count_setCell_lt g cl.row cl.col h)

theorem count_pos_of_valueAt_pos (g : Grid) (r c : Nat) (h : 0 < valueAt g r c) :
    0 < countRemainingBlocks g := by
  unfold valueAt at h
  unfold countRemainingBlocks
  by_cases hr : r < g.length
  · by_cases hc : c < (g.getD r []).length
    · have hmemrow : g.getD r [] ∈ g := by
        rw [List.getD_eq_getElem _ _ hr]
        exact List.getElem_mem hr
      have hmemv : (g.getD r []).getD c 0 ∈ g.getD r [] := by
        rw [List.getD_eq_getElem _ _ hc]
        exact List.getElem_mem hc
      have hflat : (g.getD r []).getD c 0 ∈ g.flatten :=
        List.mem_flatten.mpr ⟨_, hmemrow, hmemv⟩
      have : (g.getD r []).getD c 0 ∈ g.flatten.filter fun v => decide (0 < v) :=
        List.mem_filter.mpr ⟨hflat, by simpa using h⟩
      exact List.length_pos_of_mem this
    · rw [List.getD_eq_default _ _ (by omega)] at h
      omega
  · rw [show g.getD r [] = [] from List.getD_eq_default g [] (by omega)] at h
    simp at h

/-! ### Membership and ordering facts about the three finder passes -/

theorem enumFrom_getD (l : List Int) (n : Nat) (p : Nat × Int)
    (hp : p ∈ l.enumFrom n) :
    n ≤ p.1 ∧ p.1 - n < l.length ∧ l.getD (p.1 - n) 0 = p.2 := by
  induction l generalizing n with
  | nil => simp [List.enumFrom] at hp
  | cons a l ih =>
    rw [List.enumFrom_cons] at hp
    rcases List.mem_cons.mp hp with hp | hp
    · subst hp
      simp
    · obtain ⟨h1, h2, h3⟩ := ih (n + 1) hp
      refine ⟨by omega, by simp; omega, ?_⟩
      have : p.1 - n = (p.1 - (n + 1)) + 1 := by omega
      rw [this, List.getD_cons_succ, h3]

theorem enumFrom_fst_lt (l : List Int) (n : Nat) :
    (l.enumFrom n).Pairwise fun p q => p.1 < q.1 := by
  induction l generalizing n with
  | nil => simp [List.enumFrom]
  | cons a l ih =>
    rw [List.enumFrom_cons]
    refine List.Pairwise.cons (fun q hq => ?_) (ih (n + 1))
    have := (enumFrom_getD l (n + 1) q hq).1
    simpa using by omega

theorem mem_rowCells (g : Grid) (r : Nat) (cl : Cell) (h : cl ∈ rowCells g r) :
    cl.row = r ∧ cl.col < (g.getD r []).length ∧
      valueAt g r cl.col = cl.value ∧ 0 < cl.value := by
  unfold rowCells at h
  obtain ⟨hmem, hval⟩ := List.mem_filter.mp h
  obtain ⟨p, hp, rfl⟩ := List.mem_map.mp hmem
  have hp0 : p ∈ (g.getD r []).enumFrom 0 := hp
  obtain ⟨-, h2, h3⟩ := enumFrom_getD _ 0 p hp0
  simp only [Nat.sub_zero] at h2 h3
  exact ⟨rfl, h2, h3, by simpa using hval⟩

theorem rowCells_pairwise (g : Grid) (r : Nat) :
    (rowCells g r).Pairwise rowMajorLt := by
  unfold rowCells
  apply List.Pairwise.filter
  rw [List.pairwise_map]
  have hbase : ((g.getD r []).enumFrom 0).Pairwise fun p q => p.1 < q.1 :=
    enumFrom_fst_lt _ 0
  exact hbase.imp fun h => Or.inr ⟨rfl, h⟩

theorem mem_colCells (g : Grid) (c : Nat) (cl : Cell) (h : cl ∈ colCells g c) :
    cl.col = c ∧ valueAt g cl.row c = cl.value ∧ 0 < cl.value := by
  unfold colCells at h
  obtain ⟨r, hr, hsome⟩ := List.mem_filterMap.mp h
  by_cases hpos : 0 < valueAt g r c
  · rw [if_pos hpos] at hsome
    cases hsome
    exact ⟨rfl, rfl, hpos⟩
  · rw [if_neg hpos] at hsome
    cases hsome

theorem pairwise_filterMap {α β : Type} (f : α → Option β) {R : β → β → Prop}
    {S : α → α → Prop} (l : List α) (hl : l.Pairwise S)
    (hf : ∀ a b x y, S a b → f a = some x → f b = some y → R x y) :
    (l.filterMap f).Pairwise R := by
  induction l with
  | nil => simp
  | cons a l ih =>
    rw [List.filterMap_cons]
    rcases hl with - | ⟨ha, hl2⟩
    cases hfa : f a with
    | none => exact ih hl2
    | some x =>
      refine List.Pairwise.cons (fun y hy => ?_) (ih hl2)
      obtain ⟨b, hb, hfb⟩ := List.mem_filterMap.mp hy
      exact hf a b x y (ha b hb) hfa hfb

theorem pairwise_lt_range2 (s n : Nat) :
    (List.range' s n).Pairwise fun a b => a < b := by
  rw [List.range'_eq_map_range]
  rw [List.pairwise_map]
  exact (List.pairwise_lt_range n).imp fun h => by omega

theorem colCells_pairwise (g : Grid) (c : Nat) :
    (colCells g c).Pairwise rowMajorLt := by
  unfold colCells
  apply pairwise_filterMap _ _ (List.pairwise_lt_range g.length)
  intro a b x y hab hxa hyb
  by_cases ha : 0 < valueAt g a c
  · rw [if_pos ha] at hxa
    by_cases hb : 0 < valueAt g b c
    · rw [if_pos hb] at hyb
      cases hxa; cases hyb
      exact Or.inl hab
    · rw [if_neg hb] at hyb; cases hyb
  · rw [if_neg ha] at hxa; cases hxa

theorem mem_rectInner (g : Grid) (r minCol maxCol : Nat) (cl : Cell)
    (h : cl ∈ (List.range' minCol (maxCol + 1 - minCol)).filterMap fun c =>
      if 0 < valueAt g r c then some (Cell.mk r c (valueAt g r c)) else none) :
    cl.row = r ∧ valueAt g r cl.col = cl.value ∧ 0 < cl.value := by
  obtain ⟨c, hc, hsome⟩ := List.mem_filterMap.mp h
  by_cases hpos : 0 < valueAt g r c
  · rw [if_pos hpos] at hsome
    cases hsome
    exact ⟨rfl, rfl, hpos⟩
  · rw [if_neg hpos] at hsome
    cases hsome

theorem mem_rectCells (g : Grid) (r1 c1 r2 c2 : Nat) (cl : Cell)
    (h : cl ∈ rectCells g r1 c1 r2 c2) :
    valueAt g cl.row cl.col = cl.value ∧ 0 < cl.value := by
  unfold rectCells at h
  obtain ⟨r, hr, hcl⟩ := List.mem_flatMap.mp h
  obtain ⟨hrow, hval, hpos⟩ := mem_rectInner g r c1 c2 cl hcl
  rw [hrow]
  exact ⟨hval, hpos⟩

theorem pairwise_flatMap {α β : Type} (f : α → List β) {R : β → β → Prop}
    {S : α → α → Prop} (l : List α) (hl : l.Pairwise S)
    (hin : ∀ a, (f a).Pairwise R)
    (hcross : ∀ a b, S a b → ∀ x ∈ f a, ∀ y ∈ f b, R x y) :
    (l.flatMap f).Pairwise R := by
  induction l with
  | nil => simp
  | cons a l ih =>
    rw [List.flatMap_cons, List.pairwise_append]
    rcases hl with - | ⟨ha, hl2⟩
    refine ⟨hin a, ih hl2, fun x hx y hy => ?_⟩
    obtain ⟨b, hb, hyb⟩ := List.mem_flatMap.mp hy
    exact hcross a b (ha b hb) x hx y hyb

theorem rectCells_pairwise (g : Grid) (r1 c1 r2 c2 : Nat) :
    (rectCells g r1 c1 r2 c2).Pairwise rowMajorLt := by
  unfold rectCells
  apply pairwise_flatMap _ _ (pairwise_lt_range2 r1 (r2 + 1 - r1))
  · intro r
    apply pairwise_filterMap _ _ (pairwise_lt_range2 c1 (c2 + 1 - c1))
    intro a b x y hab hxa hyb
    by_cases ha : 0 < valueAt g r a
    · rw [if_pos ha] at hxa
      by_cases hb : 0 < valueAt g r b
      · rw [if_pos hb] at hyb
        cases hxa; cases hyb
        exact Or.inr ⟨rfl, hab⟩
      · rw [if_neg hb] at hyb; cases hyb
    · rw [if_neg ha] at hxa; cases hxa
  · intro a b hab x hx y hy
    have hxr := (mem_rectInner g a c1 c2 x hx).1
    have hyr := (mem_rectInner g b c1 c2 y hy).1
    exact Or.inl (by rw [hxr, hyr]; exact hab)

theorem mem_hRowCands (g : Grid) (r : Nat) (m : Move) :
    m ∈ hRowCands g r ↔
      m.Sublist (rowCells g r) ∧ m ≠ [] ∧ sumVal m = 10 ∧
        isValidHorizontalSelection m (g.getD r []) = true := by
  unfold hRowCands
  rw [List.mem_filter, mem_getAllSubsets]
  simp only [Bool.and_eq_true, Bool.not_eq_true', List.isEmpty_eq_false, beq_iff_eq]
  tauto

theorem mem_hCands (g : Grid) (m : Move) :
    m ∈ hCands g ↔ ∃ r, r < rowsOf g ∧ m ∈ hRowCands g r := by
  unfold hCands
  rw [List.mem_flatMap]
  simp [List.mem_range]

theorem mem_vColCands (g : Grid) (c : Nat) (m : Move) :
    m ∈ vColCands g c ↔
      m.Sublist (colCells g c) ∧ m ≠ [] ∧ sumVal m = 10 ∧
        isValidVerticalSelection m g c = true := by
  unfold vColCands
  rw [List.mem_filter, mem_getAllSubsets]
  simp only [Bool.and_eq_true, Bool.not_eq_true', List.isEmpty_eq_false, beq_iff_eq]
  tauto

theorem mem_vCands (g : Grid) (m : Move) :
    m ∈ vCands g ↔ ∃ c, c < colsOf g ∧ m ∈ vColCands g c := by
  unfold vCands
  rw [List.mem_flatMap]
  simp [List.mem_range]

theorem mem_rectCand (g : Grid) (r1 c1 r2 c2 : Nat) (m : Move) :
    m ∈ rectCand g r1 c1 r2 c2 ↔
      ¬(r1 = r2 ∨ c1 = c2) ∧ m = rectCells g r1 c1 r2 c2 ∧
        m ≠ [] ∧ sumVal m = 10 := by
  unfold rectCand
  split
  · rename_i hdeg
    simp [hdeg]
  · rename_i hdeg
    split
    · rename_i hemp
      rw [List.isEmpty_eq_true] at hemp
      simp only [List.not_mem_nil, false_iff]
      rintro ⟨-, rfl, hne, -⟩
      exact hne hemp
    · rename_i hemp
      have hemp2 : rectCells g r1 c1 r2 c2 ≠ [] := by simpa using hemp
      split
      · rename_i hsum
        rw [beq_iff_eq] at hsum
        simp only [List.mem_singleton]
        constructor
        · rintro rfl
          exact ⟨hdeg, rfl, hemp2, hsum⟩
        · rintro ⟨-, rfl, -, -⟩
          rfl
      · rename_i hsum
        simp only [List.not_mem_nil, false_iff]
        rintro ⟨-, rfl, -, hs⟩
        exact hsum (by rw [beq_iff_eq]; exact hs)

theorem mem_rCands (g : Grid) (m : Move) :
    m ∈ rCands g ↔ ∃ r1 c1 r2 c2,
      r1 < rowsOf g ∧ c1 < colsOf g ∧
      r1 ≤ r2 ∧ r2 < rowsOf g ∧ c1 ≤ c2 ∧ c2 < colsOf g ∧
      m ∈ rectCand g r1 c1 r2 c2 := by
  unfold rCands
  simp only [List.mem_flatMap, List.mem_range, List.mem_range'_1]
  constructor
  · rintro ⟨r1, hr1, c1, hc1, r2, hr2, c2, hc2, hm⟩
    exact ⟨r1, c1, r2, c2, hr1, hc1, hr2.1, by omega, hc2.1, by omega, hm⟩
  · rintro ⟨r1, c1, r2, c2, hr1, hc1, hr2a, hr2b, hc2a, hc2b, hm⟩
    exact ⟨r1, hr1, c1, hc1, r2, ⟨hr2a, by omega⟩, c2, ⟨hc2a, by omega⟩, hm⟩

/-! ### Deduplication, the combined finder, and the selection policy -/

theorem dedup_sublist (l : List Move) (seen : List (Multiset (Nat × Nat))) :
    (dedupCombinations l seen).Sublist l := by
  induction l generalizing seen with
  | nil => simp [dedupCombinations]
  | cons m ms ih =>
    unfold dedupCombinations
    split
    · exact (ih seen).cons m
    · exact (ih (moveKey m :: seen)).cons₂ m

theorem mem_fvc_cases (g : Grid) (m : Move) (h : m ∈ findValidCombinations g) :
    m ∈ hCands g ∨ m ∈ vCands g ∨ m ∈ rCands g := by
  unfold findValidCombinations at h
  have h2 := List.Sublist.mem h (dedup_sublist _ _)
  rcases List.mem_append.mp h2 with h3 | h3
  · rcases List.mem_append.mp h3 with h4 | h4
    · exact Or.inl h4
    · exact Or.inr (Or.inl h4)
  · exact Or.inr (Or.inr h3)

theorem fvc_valid (g : Grid) (m : Move) (h : m ∈ findValidCombinations g) :
    m ≠ [] ∧ sumVal m = 10 ∧
      ∀ cl ∈ m, valueAt g cl.row cl.col = cl.value ∧ 0 < cl.value := by
  rcases mem_fvc_cases g m h with hh | hh | hh
  · obtain ⟨r, -, hm⟩ := (mem_hCands g m).mp hh
    obtain ⟨hsub, hne, hsum, -⟩ := (mem_hRowCands g r m).mp hm
    refine ⟨hne, hsum, fun cl hcl => ?_⟩
    obtain ⟨hrow, -, hval, hpos⟩ := mem_rowCells g r cl (List.Sublist.mem hcl hsub)
    rw [hrow]
    exact ⟨hval, hpos⟩
  · obtain ⟨c, -, hm⟩ := (mem_vCands g m).mp hh
    obtain ⟨hsub, hne, hsum, -⟩ := (mem_vColCands g c m).mp hm
    refine ⟨hne, hsum, fun cl hcl => ?_⟩
    obtain ⟨hcol, hval, hpos⟩ := mem_colCells g c cl (List.Sublist.mem hcl hsub)
    rw [hcol]
    exact ⟨hval, hpos⟩
  · obtain ⟨r1, c1, r2, c2, -, -, -, -, -, -, hm⟩ := (mem_rCands g m).mp hh
    obtain ⟨-, hrect, hne, hsum⟩ := (mem_rectCand g r1 c1 r2 c2 m).mp hm
    refine ⟨hne, hsum, fun cl hcl => ?_⟩
    rw [hrect] at hcl
    exact mem_rectCells g r1 c1 r2 c2 cl hcl

theorem fvc_sorted (g : Grid) (m : Move) (h : m ∈ findValidCombinations g) :
    m.Pairwise rowMajorLt := by
  rcases mem_fvc_cases g m h with hh | hh | hh
  · obtain ⟨r, -, hm⟩ := (mem_hCands g m).mp hh
    obtain ⟨hsub, -, -, -⟩ := (mem_hRowCands g r m).mp hm
    exact List.Pairwise.sublist hsub (rowCells_pairwise g r)
  · obtain ⟨c, -, hm⟩ := (mem_vCands g m).mp hh
    obtain ⟨hsub, -, -, -⟩ := (mem_vColCands g c m).mp hm
    exact List.Pairwise.sublist hsub (colCells_pairwise g c)
  · obtain ⟨r1, c1, r2, c2, -, -, -, -, -, -, hm⟩ := (mem_rCands g m).mp hh
    obtain ⟨-, hrect, -, -⟩ := (mem_rectCand g r1 c1 r2 c2 m).mp hm
    rw [hrect]
    exact rectCells_pairwise g r1 c1 r2 c2

theorem fvc_count_lt (g : Grid) (m : Move) (h : m ∈ findValidCombinations g) :
    countRemainingBlocks (applyMove g m) < countRemainingBlocks g := by
  obtain ⟨hne, -, hcells⟩ := fvc_valid g m h
  cases m with
  | nil => exact absurd rfl hne
  | cons cl rest =>
    apply count_applyMove_lt
    have h2 := hcells cl (List.mem_cons_self cl rest)
    rw [h2.1]
    exact h2.2

theorem fvc_of_count_zero (g : Grid) (h : countRemainingBlocks g = 0) :
    findValidCombinations g = [] := by
  rw [List.eq_nil_iff_forall_not_mem]
  intro m hm
  obtain ⟨hne, -, hcells⟩ := fvc_valid g m hm
  obtain ⟨cl, hcl⟩ := List.exists_mem_of_ne_nil m hne
  have h2 := hcells cl hcl
  have h3 := count_pos_of_valueAt_pos g cl.row cl.col (by rw [h2.1]; exact h2.2)
  omega

theorem moveLt_irrefl (a : Move) : moveLt a a = false := by
  unfold moveLt
  simp

theorem moveLt_shift (a b r : Move) (h1 : moveLt a b = true)
    (h2 : moveLt a r = false) : moveLt b r = false := by
  unfold moveLt at h1 h2 ⊢
  split_ifs at h1 h2 ⊢ <;>
    simp only [decide_eq_true_eq, decide_eq_false_iff_not] at h1 h2 ⊢ <;>
    omega

theorem moveLt_false_trans (a b r : Move) (h1 : moveLt a b = false)
    (h2 : moveLt b r = false) : moveLt a r = false := by
  unfold moveLt at h1 h2 ⊢
  split_ifs at h1 h2 ⊢ <;>
    simp only [decide_eq_true_eq, decide_eq_false_iff_not] at h1 h2 ⊢ <;>
    omega

theorem selectBest_go (l : List Move) (c : Move) :
    (l.foldl (fun best m => if moveLt m best then m else best) c ∈ c :: l) ∧
      ∀ m ∈ c :: l,
        moveLt m (l.foldl (fun best m => if moveLt m best then m else best) c) = false := by
  induction l generalizing c with
  | nil =>
    refine ⟨List.mem_singleton.mpr rfl, fun m hm => ?_⟩
    rw [List.mem_singleton] at hm
    rw [hm]
    exact moveLt_irrefl c
  | cons m0 l ih =>
    rw [List.foldl_cons]
    by_cases h : moveLt m0 c = true
    · rw [if_pos h]
      obtain ⟨ih1, ih2⟩ := ih m0
      constructor
      · rcases List.mem_cons.mp ih1 with hh | hh
        · rw [hh]; exact List.mem_cons_of_mem _ (List.mem_cons_self _ _)
        · exact List.mem_cons_of_mem _ (List.mem_cons_of_mem _ hh)
      · intro m hm
        rcases List.mem_cons.mp hm with rfl | hm2
        · exact moveLt_shift m0 m _ h (ih2 m0 (List.mem_cons_self _ _))
        · exact ih2 m hm2
    · rw [if_neg h]
      rw [Bool.not_eq_true] at h
      obtain ⟨ih1, ih2⟩ := ih c
      constructor
      · rcases List.mem_cons.mp ih1 with hh | hh
        · rw [hh]; exact List.mem_cons_self _ _
        · exact List.mem_cons_of_mem _ (List.mem_cons_of_mem _ hh)
      · intro m hm
        rcases List.mem_cons.mp hm with rfl | hm2
        · exact ih2 _ (List.mem_cons_self _ _)
        · rcases List.mem_cons.mp hm2 with rfl | hm3
          · exact moveLt_false_trans m c _ h (ih2 c (List.mem_cons_self _ _))
          · exact ih2 m (List.mem_cons_of_mem _ hm3)

theorem selectBest_spec (c : Move) (cs : List Move) :
    selectBest (c :: cs) ∈ c :: cs ∧
      ∀ m ∈ c :: cs, moveLt m (selectBest (c :: cs)) = false := by
  unfold selectBest
  exact selectBest_go cs c

theorem selectBest_mem (l : List Move) (h : l ≠ []) : selectBest l ∈ l := by
  cases l with
  | nil => exact absurd rfl h
  | cons c cs => exact (selectBest_spec c cs).1

theorem selectBest_length_max (c : Move) (cs : List Move) (m : Move)
    (hm : m ∈ c :: cs) : m.length ≤ (selectBest (c :: cs)).length := by
  have h := (selectBest_spec c cs).2 m hm
  unfold moveLt at h
  split_ifs at h <;>
    simp only [decide_eq_true_eq, decide_eq_false_iff_not] at h <;> omega

theorem selectBest_headCol_min (c : Move) (cs : List Move) (m : Move)
    (hm : m ∈ c :: cs) (hlen : m.length = (selectBest (c :: cs)).length) :
    headCol (selectBest (c :: cs)) ≤ headCol m := by
  have h := (selectBest_spec c cs).2 m hm
  unfold moveLt at h
  split_ifs at h with hq
  · exact absurd hlen hq
  · simp only [decide_eq_false_iff_not] at h
    omega

/-! ### The solver loop: fuel stability, unfolding, and the step chain -/

theorem solveAux_nil_fvc (f : Nat) (g : Grid) (h : findValidCombinations g = []) :
    solveAux f g = [] := by
  cases f with
  | zero => rfl
  | succ f => simp [solveAux, h]

theorem solveAux_cons_fvc (f : Nat) (g : Grid) (c : Move) (cs : List Move)
    (h : findValidCombinations g = c :: cs) :
    solveAux (f + 1) g =
      Step.mk (selectBest (c :: cs)) 10 (applyMove g (selectBest (c :: cs))) ::
        solveAux f (applyMove g (selectBest (c :: cs))) := by
  simp [solveAux, h]

theorem stepGrid_nil_fvc (g : Grid) (h : findValidCombinations g = []) :
    stepGrid g = g := by
  simp [stepGrid, h]

theorem stepGrid_cons_fvc (g : Grid) (c : Move) (cs : List Move)
    (h : findValidCombinations g = c :: cs) :
    stepGrid g = applyMove g (selectBest (c :: cs)) := by
  simp [stepGrid, h]

theorem selectBest_mem_fvc (g : Grid) (c : Move) (cs : List Move)
    (h : findValidCombinations g = c :: cs) :
    selectBest (c :: cs) ∈ findValidCombinations g := by
  rw [h]
  exact selectBest_mem (c :: cs) (by simp)

theorem count_stepGrid_lt (g : Grid) (c : Move) (cs : List Move)
    (h : findValidCombinations g = c :: cs) :
    countRemainingBlocks (stepGrid g) < countRemainingBlocks g := by
  rw [stepGrid_cons_fvc g c cs h]
  exact fvc_count_lt g _ (selectBest_mem_fvc g c cs h)

theorem solveAux_stable (k : Nat) : ∀ (f n : Nat) (g : Grid),
    countRemainingBlocks g ≤ k → countRemainingBlocks g ≤ f →
    countRemainingBlocks g ≤ n → solveAux f g = solveAux n g := by
  induction k with
  | zero =>
    intro f n g hk _ _
    have h0 := fvc_of_count_zero g (by omega)
    rw [solveAux_nil_fvc f g h0, solveAux_nil_fvc n g h0]
  | succ k ih =>
    intro f n g hk hf hn
    cases hfvc : findValidCombinations g with
    | nil => rw [solveAux_nil_fvc f g hfvc, solveAux_nil_fvc n g hfvc]
    | cons c cs =>
      have hlt : countRemainingBlocks (applyMove g (selectBest (c :: cs))) <
          countRemainingBlocks g :=
        fvc_count_lt g _ (selectBest_mem_fvc g c cs hfvc)
      have hpos : 0 < countRemainingBlocks g :=
        Nat.pos_of_ne_zero fun h0 => by
          rw [fvc_of_count_zero g h0] at hfvc; cases hfvc
      obtain ⟨f2, rfl⟩ : ∃ f2, f = f2 + 1 := ⟨f - 1, by omega⟩
      obtain ⟨n2, rfl⟩ : ∃ n2, n = n2 + 1 := ⟨n - 1, by omega⟩
      rw [solveAux_cons_fvc f2 g c cs hfvc, solveAux_cons_fvc n2 g c cs hfvc]
      congr 1
      exact ih f2 n2 _ (by omega) (by omega) (by omega)

theorem solvePuzzle_eq_solveAux (f : Nat) (g : Grid)
    (hf : countRemainingBlocks g ≤ f) : solvePuzzle g = solveAux f g := by
  unfold solvePuzzle
  exact solveAux_stable (countRemainingBlocks g) (countRemainingBlocks g) f g
    le_rfl le_rfl hf

theorem solvePuzzle_nil (g : Grid) (h : findValidCombinations g = []) :
    solvePuzzle g = [] :=
  solveAux_nil_fvc _ g h

theorem solvePuzzle_cons (g : Grid) (c : Move) (cs : List Move)
    (h : findValidCombinations g = c :: cs) :
    solvePuzzle g =
      Step.mk (selectBest (c :: cs)) 10 (applyMove g (selectBest (c :: cs))) ::
        solvePuzzle (applyMove g (selectBest (c :: cs))) := by
  have hlt : countRemainingBlocks (applyMove g (selectBest (c :: cs))) <
      countRemainingBlocks g :=
    fvc_count_lt g _ (selectBest_mem_fvc g c cs h)
  have hpos : 0 < countRemainingBlocks g :=
    Nat.pos_of_ne_zero fun h0 => by
      rw [fvc_of_count_zero g h0] at h; cases h
  obtain ⟨k, hk⟩ : ∃ k, countRemainingBlocks g = k + 1 :=
    ⟨countRemainingBlocks g - 1, by omega⟩
  unfold solvePuzzle
  rw [hk, solveAux_cons_fvc k g c cs h]
  congr 1
  exact solveAux_stable k k (countRemainingBlocks (applyMove g (selectBest (c :: cs))))
    _ (by omega) (by omega) le_rfl

theorem gridSeq_zero (g : Grid) : gridSeq g 0 = g := rfl

theorem gridSeq_succ (g : Grid) (i : Nat) :
    gridSeq g (i + 1) = stepGrid (gridSeq g i) := rfl

theorem gridSeq_shift (g : Grid) (i : Nat) :
    gridSeq (stepGrid g) i = gridSeq g (i + 1) := by
  induction i with
  | zero => rfl
  | succ i ih =>
    rw [gridSeq_succ, ih]
    rfl

theorem gridSeq_shift_fvc (g : Grid) (c : Move) (cs : List Move)
    (h : findValidCombinations g = c :: cs) (i : Nat) :
    gridSeq (applyMove g (selectBest (c :: cs))) i = gridSeq g (i + 1) := by
  have hg2 : applyMove g (selectBest (c :: cs)) = stepGrid g :=
    (stepGrid_cons_fvc g c cs h).symm
  rw [hg2]
  exact gridSeq_shift g i

theorem solvePuzzle_get (i : Nat) : ∀ (g : Grid) (h : i < (solvePuzzle g).length),
    findValidCombinations (gridSeq g i) ≠ [] ∧
      (solvePuzzle g)[i] =
        Step.mk (selectBest (findValidCombinations (gridSeq g i))) 10
          (gridSeq g (i + 1)) := by
  induction i with
  | zero =>
    intro g h
    cases hfvc : findValidCombinations g with
    | nil => rw [solvePuzzle_nil g hfvc] at h; simp at h
    | cons c cs =>
      have heq := solvePuzzle_cons g c cs hfvc
      constructor
      · rw [gridSeq_zero, hfvc]; simp
      · simp only [heq, List.getElem_cons_zero, gridSeq_zero, hfvc]
        rw [gridSeq_succ, gridSeq_zero, stepGrid_cons_fvc g c cs hfvc]
  | succ i ih =>
    intro g h
    cases hfvc : findValidCombinations g with
    | nil => rw [solvePuzzle_nil g hfvc] at h; simp at h
    | cons c cs =>
      have heq := solvePuzzle_cons g c cs hfvc
      have hlen : i < (solvePuzzle (applyMove g (selectBest (c :: cs)))).length := by
        rw [heq] at h
        simpa using h
      obtain ⟨ihne, iheq⟩ := ih _ hlen
      refine ⟨?_, ?_⟩
      · rw [← gridSeq_shift_fvc g c cs hfvc i]
        exact ihne
      · rw [← gridSeq_shift_fvc g c cs hfvc i, ← gridSeq_shift_fvc g c cs hfvc (i + 1)]
        simp only [heq, List.getElem_cons_succ]
        exact iheq

theorem solveAux_length (f : Nat) : ∀ (g : Grid), countRemainingBlocks g ≤ f →
    (solveAux f g).length ≤ countRemainingBlocks g := by
  induction f with
  | zero => intro g h; simp [solveAux]
  | succ f ih =>
    intro g h
    cases hfvc : findValidCombinations g with
    | nil => rw [solveAux_nil_fvc _ g hfvc]; simp
    | cons c cs =>
      rw [solveAux_cons_fvc f g c cs hfvc]
      have hlt : countRemainingBlocks (applyMove g (selectBest (c :: cs))) <
          countRemainingBlocks g :=
        fvc_count_lt g _ (selectBest_mem_fvc g c cs hfvc)
      have := ih (applyMove g (selectBest (c :: cs))) (by omega)
      simp only [List.length_cons]
      omega

theorem solvePuzzle_length_le (g : Grid) :
    (solvePuzzle g).length ≤ countRemainingBlocks g :=
  solveAux_length (countRemainingBlocks g) g le_rfl

theorem solveAux_terminal (f : Nat) : ∀ (g : Grid), countRemainingBlocks g ≤ f →
    findValidCombinations (gridSeq g (solveAux f g).length) = [] := by
  induction f with
  | zero =>
    intro g h
    exact fvc_of_count_zero g (by omega)
  | succ f ih =>
    intro g h
    cases hfvc : findValidCombinations g with
    | nil =>
      rw [solveAux_nil_fvc _ g hfvc]
      exact hfvc
    | cons c cs =>
      rw [solveAux_cons_fvc f g c cs hfvc]
      simp only [List.length_cons]
      rw [← gridSeq_shift_fvc g c cs hfvc]
      have hlt : countRemainingBlocks (applyMove g (selectBest (c :: cs))) <
          countRemainingBlocks g :=
        fvc_count_lt g _ (selectBest_mem_fvc g c cs hfvc)
      exact ih _ (by omega)

theorem solvePuzzle_terminal (g : Grid) :
    findValidCombinations (gridSeq g (solvePuzzle g).length) = [] :=
  solveAux_terminal (countRemainingBlocks g) g le_rfl

/-! ### The gap rule of the horizontal pass -/

theorem foldl_min_le (l : List Nat) : ∀ a : Nat,
    l.foldl Nat.min a ≤ a ∧ ∀ x ∈ l, l.foldl Nat.min a ≤ x := by
  induction l with
  | nil => intro a; simp
  | cons b l ih =>
    intro a
    rw [List.foldl_cons]
    obtain ⟨h1, h2⟩ := ih (Nat.min a b)
    refine ⟨le_trans h1 (Nat.min_le_left a b), fun x hx => ?_⟩
    rcases List.mem_cons.mp hx with rfl | hx2
    · exact le_trans h1 (Nat.min_le_right a x)
    · exact h2 x hx2

theorem le_foldl_max (l : List Nat) : ∀ a : Nat,
    a ≤ l.foldl Nat.max a ∧ ∀ x ∈ l, x ≤ l.foldl Nat.max a := by
  induction l with
  | nil => intro a; simp
  | cons b l ih =>
    intro a
    rw [List.foldl_cons]
    obtain ⟨h1, h2⟩ := ih (Nat.max a b)
    refine ⟨le_trans (Nat.le_max_left a b) h1, fun x hx => ?_⟩
    rcases List.mem_cons.mp hx with rfl | hx2
    · exact le_trans (Nat.le_max_right a x) h1
    · exact h2 x hx2

theorem natListMin_le (l : List Nat) (x : Nat) (hx : x ∈ l) : natListMin l ≤ x := by
  cases l with
  | nil => cases hx
  | cons c cs =>
    unfold natListMin
    rcases List.mem_cons.mp hx with rfl | hx2
    · exact (foldl_min_le cs x).1
    · exact (foldl_min_le cs c).2 x hx2

theorem le_natListMax (l : List Nat) (x : Nat) (hx : x ∈ l) : x ≤ natListMax l := by
  cases l with
  | nil => cases hx
  | cons c cs =>
    unfold natListMax
    rcases List.mem_cons.mp hx with rfl | hx2
    · exact (le_foldl_max cs x).1
    · exact (le_foldl_max cs c).2 x hx2

theorem natListMin_le_natListMax (l : List Nat) (h : l ≠ []) :
    natListMin l ≤ natListMax l := by
  cases l with
  | nil => exact absurd rfl h
  | cons c cs =>
    exact le_trans (natListMin_le (c :: cs) c (List.mem_cons_self c cs))
      (le_natListMax (c :: cs) c (List.mem_cons_self c cs))

theorem isValidHorizontalSelection_iff (cells : List Cell) (row : List Int) :
    isValidHorizontalSelection cells row = true ↔
      cells ≠ [] ∧ specGapFree cells row := by
  cases cells with
  | nil =>
    unfold isValidHorizontalSelection
    simp
  | cons a tl =>
    cases tl with
    | nil =>
      unfold isValidHorizontalSelection specGapFree
      simp
    | cons b rest =>
      have hne : (a :: b :: rest : List Cell) ≠ [] := by simp
      have hcolsne : ((a :: b :: rest).map fun c => c.col) ≠ [] := by simp
      have hminmax := natListMin_le_natListMax _ hcolsne
      have hlen2 : (a :: b :: rest : List Cell).length ≠ 1 := by simp
      show ((List.range' (natListMin ((a :: b :: rest).map fun c => c.col))
          (natListMax ((a :: b :: rest).map fun c => c.col) + 1 -
            natListMin ((a :: b :: rest).map fun c => c.col))).all fun col =>
          ((a :: b :: rest).any fun c => c.col == col) || (row.getD col 0 == 0)) = true
        ↔ _
      rw [List.all_eq_true]
      unfold specGapFree
      constructor
      · intro h
        refine ⟨hne, Or.inr fun col h1 h2 hnot => ?_⟩
        have hcolmem : col ∈ List.range'
            (natListMin ((a :: b :: rest).map fun c => c.col))
            (natListMax ((a :: b :: rest).map fun c => c.col) + 1 -
              natListMin ((a :: b :: rest).map fun c => c.col)) := by
          rw [List.mem_range'_1]
          omega
        have h3 := h col hcolmem
        rcases Bool.or_eq_true _ _ |>.mp h3 with h4 | h4
        · obtain ⟨cl, hcl, hcleq⟩ := List.any_eq_true.mp h4
          exact absurd (beq_iff_eq.mp hcleq) (hnot cl hcl)
        · exact beq_iff_eq.mp h4
      · rintro ⟨-, h | h⟩
        · exact absurd h hlen2
        · intro col hcol
          rw [List.mem_range'_1] at hcol
          by_cases hsel : ∃ cl ∈ (a :: b :: rest : List Cell), cl.col = col
          · obtain ⟨cl, hcl, hcleq⟩ := hsel
            apply Bool.or_eq_true _ _ |>.mpr
            exact Or.inl (List.any_eq_true.mpr ⟨cl, hcl, beq_iff_eq.mpr hcleq⟩)
          · apply Bool.or_eq_true _ _ |>.mpr
            refine Or.inr (beq_iff_eq.mpr ?_)
            exact h col (by omega) (by omega) fun cl hcl hc => hsel ⟨cl, hcl, hc⟩

/-! ### The claims -/

/-- C1: at every iteration of the solve loop (step i of solvePuzzle, whose
current grid is gridSeq g i), the applied move is one of the candidates with
the largest cell count, and among candidates tied on cell count its first
cell, in the order the candidate was produced by the finder, has the smallest
column index. -/
theorem claim_C1 (g : Grid) (i : Nat) (h : i < (solvePuzzle g).length) :
    ((solvePuzzle g).get ⟨i, h⟩).cells ∈ findValidCombinations (gridSeq g i) ∧
      (∀ m ∈ findValidCombinations (gridSeq g i),
        m.length ≤ ((solvePuzzle g).get ⟨i, h⟩).cells.length) ∧
      ∀ m ∈ findValidCombinations (gridSeq g i),
        m.length = ((solvePuzzle g).get ⟨i, h⟩).cells.length →
          headCol ((solvePuzzle g).get ⟨i, h⟩).cells ≤ headCol m := by
  obtain ⟨hne, heq⟩ := solvePuzzle_get i g h
  rw [List.get_eq_getElem]
  cases hfvc : findValidCombinations (gridSeq g i) with
  | nil => exact absurd hfvc hne
  | cons c cs =>
    rw [hfvc] at heq
    simp only [heq]
    refine ⟨?_, fun m hm => ?_, fun m hm hl => ?_⟩
    · exact selectBest_mem (c :: cs) (by simp)
    · exact selectBest_length_max c cs m hm
    · exact selectBest_headCol_min c cs m hm hl

/-- C1 witness at the grid [[5,0,5]], step 0. -/
theorem claim_C1_witness :
    0 < (solvePuzzle [[5, 0, 5]]).length ∧
      ((solvePuzzle [[5, 0, 5]]).get ⟨0, by decide⟩).cells ∈
        findValidCombinations (gridSeq [[5, 0, 5]] 0) :=
  ⟨by decide, (claim_C1 [[5, 0, 5]] 0 (by decide)).1⟩

/-- C2: the loop terminates on its own (any fuel at least the nonzero-cell
count yields the same steps), each emitted step strictly decreases the
nonzero-cell count of the grid it is applied to (by at least one), and the
number of steps is at most the initial nonzero-cell count. -/
theorem claim_C2 (g : Grid) :
    (∀ f, countRemainingBlocks g ≤ f → solveAux f g = solvePuzzle g) ∧
      (solvePuzzle g).length ≤ countRemainingBlocks g ∧
      ∀ i (h : i < (solvePuzzle g).length),
        ((solvePuzzle g).get ⟨i, h⟩).gridAfter = gridSeq g (i + 1) ∧
        countRemainingBlocks ((solvePuzzle g).get ⟨i, h⟩).gridAfter <
          countRemainingBlocks (gridSeq g i) := by
  refine ⟨fun f hf => (solvePuzzle_eq_solveAux f g hf).symm,
    solvePuzzle_length_le g, fun i h => ?_⟩
  obtain ⟨hne, heq⟩ := solvePuzzle_get i g h
  rw [List.get_eq_getElem]
  cases hfvc : findValidCombinations (gridSeq g i) with
  | nil => exact absurd hfvc hne
  | cons c cs =>
    constructor
    · simp only [heq]
    · simp only [heq]
      rw [gridSeq_succ]
      exact count_stepGrid_lt _ c cs hfvc

/-- C2 witness at the grid [[5,0,5]]. -/
theorem claim_C2_witness :
    solveAux 2 [[5, 0, 5]] = solvePuzzle [[5, 0, 5]] ∧
      countRemainingBlocks ((solvePuzzle [[5, 0, 5]]).get ⟨0, by decide⟩).gridAfter <
        countRemainingBlocks (gridSeq [[5, 0, 5]] 0) :=
  ⟨(claim_C2 [[5, 0, 5]]).1 2 (by decide),
    ((claim_C2 [[5, 0, 5]]).2.2 0 (by decide)).2⟩

/-- C3: every emitted step's gridAfter holds 0 at exactly the step's cell
coordinates and agrees with the grid the step was derived from at every other
coordinate. -/
theorem claim_C3 (g : Grid) (i : Nat) (h : i < (solvePuzzle g).length)
    (r c : Nat) :
    valueAt ((solvePuzzle g).get ⟨i, h⟩).gridAfter r c =
      if ∃ cl ∈ ((solvePuzzle g).get ⟨i, h⟩).cells, r = cl.row ∧ c = cl.col
      then 0 else valueAt (gridSeq g i) r c := by
  obtain ⟨hne, heq⟩ := solvePuzzle_get i g h
  rw [List.get_eq_getElem]
  cases hfvc : findValidCombinations (gridSeq g i) with
  | nil => exact absurd hfvc hne
  | cons c2 cs =>
    rw [hfvc] at heq
    simp only [heq]
    rw [gridSeq_succ, stepGrid_cons_fvc _ c2 cs hfvc]
    exact valueAt_applyMove _ _ r c

/-- C3 witness: in the [[5,0,5]] solve, the untouched middle cell keeps its
value (0) in gridAfter. -/
theorem claim_C3_witness :
    valueAt ((solvePuzzle [[5, 0, 5]]).get ⟨0, by decide⟩).gridAfter 0 1 = 0 := by
  rw [claim_C3 [[5, 0, 5]] 0 (by decide) 0 1]
  decide

/-- C4: the horizontal pass for one row emits exactly those non-empty subsets
of the row's nonzero cells (in production order) that sum to 10 and satisfy
the gap rule over their column span, a single-cell subset being always legal;
and solving [[5,0,5]] yields exactly the one step over (0,0,5) and (0,2,5)
with gridAfter [[0,0,0]]. -/
theorem claim_C4 :
    (∀ (g : Grid) (r : Nat) (m : Move),
      m ∈ hRowCands g r ↔
        m ≠ [] ∧ m.Sublist (rowCells g r) ∧ sumVal m = 10 ∧
          specGapFree m (g.getD r [])) ∧
    solvePuzzle [[5, 0, 5]] =
      [Step.mk [Cell.mk 0 0 5, Cell.mk 0 2 5] 10 [[0, 0, 0]]] := by
  refine ⟨fun g r m => ?_, by decide⟩
  rw [mem_hRowCands, isValidHorizontalSelection_iff]
  tauto

/-- C4 witness: the two-cell subset of [[5,0,5]] row 0 is emitted, hence
non-empty, a subset of the row's nonzero cells, and of sum 10. -/
theorem claim_C4_witness :
    [Cell.mk 0 0 5, Cell.mk 0 2 5] ≠ [] ∧
      [Cell.mk 0 0 5, Cell.mk 0 2 5].Sublist (rowCells [[5, 0, 5]] 0) ∧
      sumVal [Cell.mk 0 0 5, Cell.mk 0 2 5] = 10 := by
  have h := (claim_C4.1 [[5, 0, 5]] 0 [Cell.mk 0 0 5, Cell.mk 0 2 5]).mp (by decide)
  exact ⟨h.1, h.2.1, h.2.2.1⟩

/-- C5: the rectangular pass emits a move for a rectangle of at least two
rows and two columns exactly when the rectangle's whole nonzero-cell set is
non-empty and sums to 10, the move being that entire set; and solving
[[1,1],[4,4]] yields exactly the one step over all four cells with gridAfter
[[0,0],[0,0]]. -/
theorem claim_C5 :
    (∀ (g : Grid) (m : Move),
      m ∈ rCands g ↔
        ∃ r1 c1 r2 c2, r1 < r2 ∧ r2 < rowsOf g ∧ c1 < c2 ∧ c2 < colsOf g ∧
          m = rectCells g r1 c1 r2 c2 ∧ m ≠ [] ∧ sumVal m = 10) ∧
    solvePuzzle [[1, 1], [4, 4]] =
      [Step.mk [Cell.mk 0 0 1, Cell.mk 0 1 1, Cell.mk 1 0 4, Cell.mk 1 1 4] 10
        [[0, 0], [0, 0]]] := by
  refine ⟨fun g m => ?_, by decide⟩
  rw [mem_rCands]
  constructor
  · rintro ⟨r1, c1, r2, c2, hr1, hc1, hr2a, hr2b, hc2a, hc2b, hm⟩
    obtain ⟨hdeg, hrect, hne, hsum⟩ := (mem_rectCand g r1 c1 r2 c2 m).mp hm
    rcases not_or.mp hdeg with ⟨hd1, hd2⟩
    exact ⟨r1, c1, r2, c2, by omega, hr2b, by omega, hc2b, hrect, hne, hsum⟩
  · rintro ⟨r1, c1, r2, c2, h1, h2, h3, h4, hm, hne, hsum⟩
    refine ⟨r1, c1, r2, c2, by omega, by omega, by omega, h2, by omega, h4, ?_⟩
    rw [mem_rectCand]
    exact ⟨by omega, hm, hne, hsum⟩

/-- C5 witness: the full rectangle of [[1,1],[4,4]] is emitted by the
rectangular pass. -/
theorem claim_C5_witness :
    [Cell.mk 0 0 1, Cell.mk 0 1 1, Cell.mk 1 0 4, Cell.mk 1 1 4] ∈
      rCands [[1, 1], [4, 4]] := by
  apply (claim_C5.1 [[1, 1], [4, 4]] _).mpr
  exact ⟨0, 0, 1, 1, by decide, by decide, by decide, by decide, by decide,
    by decide, by decide⟩

/-- C6 counterexample: against the claim, invalid grids are not rejected:
the worker replies with a result (a Solution), not a failure, both for the
out-of-range grid [[10]] (whose single 10-valued cell the finder even clears,
proving the finder ran) and for the empty grid. -/
theorem claim_C6_counterexample :
    workerSolveReply [[10]] =
      WorkerResponse.result [Step.mk [Cell.mk 0 0 10] 10 [[0]]] ∧
    workerSolveReply [] = WorkerResponse.result [] := by
  constructor <;> decide

/-- C6 (amended): grid validation lives only in the importGrid boundary
helper, which accepts a grid exactly when it is non-empty, rectangular and
valued in [0,9]; solvePuzzle itself performs no validation and the worker
replies with a (possibly non-empty) result even for invalid grids. -/
theorem claim_C6 :
    (∀ g : Grid, importGridAccepts g = true ↔ specValidGrid g) ∧
    workerSolveReply [[10]] =
      WorkerResponse.result [Step.mk [Cell.mk 0 0 10] 10 [[0]]] ∧
    workerSolveReply [] = WorkerResponse.result [] := by
  refine ⟨fun g => ?_, by decide, by decide⟩
  constructor
  · intro hh
    unfold importGridAccepts at hh
    split at hh
    · cases hh
    · rename_i hcond
      simp only [Bool.or_eq_true, List.isEmpty_eq_true, not_or] at hcond
      rw [List.all_eq_true] at hh
      refine ⟨hcond.1, hcond.2, fun row hrow => ?_⟩
      have h2 := hh row hrow
      simp only [Bool.and_eq_true, beq_iff_eq, List.all_eq_true,
        decide_eq_true_eq] at h2
      exact ⟨h2.1, h2.2⟩
  · rintro ⟨hne, hhead, hrows⟩
    unfold importGridAccepts
    rw [if_neg]
    · rw [List.all_eq_true]
      intro row hrow
      simp only [Bool.and_eq_true, beq_iff_eq, List.all_eq_true,
        decide_eq_true_eq]
      exact ⟨(hrows row hrow).1, (hrows row hrow).2⟩
    · simp only [Bool.or_eq_true, List.isEmpty_eq_true, not_or]
      exact ⟨hne, hhead⟩

/-- C6 witness: the boundary validator accepts the valid grid [[5]]. -/
theorem claim_C6_witness : specValidGrid [[5]] :=
  ((claim_C6.1) [[5]]).mp (by decide)

/-- C7: every candidate move's cell values sum to exactly 10, and every
emitted step carries cells of sum 10 and the constant sum field 10. -/
theorem claim_C7 (g : Grid) :
    (∀ m ∈ findValidCombinations g, sumVal m = 10) ∧
      ∀ i (h : i < (solvePuzzle g).length),
        sumVal ((solvePuzzle g).get ⟨i, h⟩).cells = 10 ∧
        ((solvePuzzle g).get ⟨i, h⟩).sum = 10 := by
  refine ⟨fun m hm => (fvc_valid g m hm).2.1, fun i h => ?_⟩
  obtain ⟨hne, heq⟩ := solvePuzzle_get i g h
  rw [List.get_eq_getElem]
  cases hfvc : findValidCombinations (gridSeq g i) with
  | nil => exact absurd hfvc hne
  | cons c cs =>
    rw [hfvc] at heq
    simp only [heq]
    refine ⟨?_, trivial⟩
    exact (fvc_valid _ _ (selectBest_mem_fvc _ c cs hfvc)).2.1

/-- C7 witness at the grid [[5,0,5]], step 0. -/
theorem claim_C7_witness :
    sumVal ((solvePuzzle [[5, 0, 5]]).get ⟨0, by decide⟩).cells = 10 ∧
      ((solvePuzzle [[5, 0, 5]]).get ⟨0, by decide⟩).sum = 10 :=
  (claim_C7 [[5, 0, 5]]).2 0 (by decide)

/-- C8: solving the gridAfter of the final step of a non-empty solution
yields an empty step sequence. -/
theorem claim_C8 (g : Grid) (h : solvePuzzle g ≠ []) :
    solvePuzzle (((solvePuzzle g).getLast h).gridAfter) = [] := by
  have hpos : 0 < (solvePuzzle g).length := List.length_pos.mpr h
  obtain ⟨-, heq⟩ := solvePuzzle_get ((solvePuzzle g).length - 1) g (by omega)
  rw [List.getLast_eq_getElem, heq]
  show solvePuzzle (gridSeq g ((solvePuzzle g).length - 1 + 1)) = []
  have hidx : (solvePuzzle g).length - 1 + 1 = (solvePuzzle g).length := by omega
  rw [hidx]
  exact solvePuzzle_nil _ (solvePuzzle_terminal g)

/-- C8 witness at the grid [[5,0,5]]. -/
theorem claim_C8_witness :
    solvePuzzle (((solvePuzzle [[5, 0, 5]]).getLast (by decide)).gridAfter) = [] :=
  claim_C8 [[5, 0, 5]] (by decide)

/-- C10: every candidate's cell list is strictly increasing in row-major
order; hence all its coordinates are distinct and its first element is its
minimal-coordinate cell. -/
theorem claim_C10 (g : Grid) (m : Move) (h : m ∈ findValidCombinations g) :
    m.Pairwise rowMajorLt ∧
      m.Pairwise (fun a b => ¬(a.row = b.row ∧ a.col = b.col)) ∧
      ∀ cl ∈ m, cl = m.headD (Cell.mk 0 0 0) ∨
        rowMajorLt (m.headD (Cell.mk 0 0 0)) cl := by
  have hp := fvc_sorted g m h
  refine ⟨hp, hp.imp fun hab => ?_, ?_⟩
  · rcases hab with h1 | ⟨h1, h2⟩
    · intro hc; omega
    · intro hc; omega
  · cases m with
    | nil => intro cl hcl; cases hcl
    | cons hd tl =>
      intro cl hcl
      rcases List.mem_cons.mp hcl with rfl | hcl2
      · exact Or.inl rfl
      · exact Or.inr ((List.pairwise_cons.mp hp).1 cl hcl2)

/-- C10 witness: in the emitted [[5,0,5]] candidate, the first cell strictly
precedes the second in row-major order. -/
theorem claim_C10_witness :
    [Cell.mk 0 0 5, Cell.mk 0 2 5] ∈ findValidCombinations [[5, 0, 5]] ∧
      rowMajorLt (Cell.mk 0 0 5) (Cell.mk 0 2 5) := by
  have hmem : [Cell.mk 0 0 5, Cell.mk 0 2 5] ∈ findValidCombinations [[5, 0, 5]] := by
    decide
  have h := (claim_C10 [[5, 0, 5]] _ hmem).1
  exact ⟨hmem, (List.pairwise_cons.mp h).1 (Cell.mk 0 2 5) (List.mem_singleton.mpr rfl)⟩

-- concrete evaluations of the embedding on the remaining spec scenarios
example : solvePuzzle [[5, 0, 5]] =
    [Step.mk [Cell.mk 0 0 5, Cell.mk 0 2 5] 10 [[0, 0, 0]]] := by decide

example : solvePuzzle [[1, 1], [4, 4]] =
    [Step.mk [Cell.mk 0 0 1, Cell.mk 0 1 1, Cell.mk 1 0 4, Cell.mk 1 1 4] 10
      [[0, 0], [0, 0]]] := by decide

example : solvePuzzle [[3, 4]] = [] := by decide

example : solvePuzzle [[10]] = [Step.mk [Cell.mk 0 0 10] 10 [[0]]] := by decide

example : importGridAccepts [[10]] = false := by decide

example : importGridAccepts [[5], [5, 5]] = false := by decide
